import Mathlib

/-!
# Verification of the `lock_test` lock micro-benchmark

Shallow embedding of the lock algorithms and the measurement harness of the
`lock_test` repository (C++ sources under `src/`), together with theorems
checking the natural-language specification against the code.

Conventions:
* 32-bit unsigned machine integers are modelled as `Nat` reduced modulo `2^32`
  (`u32`), 64-bit ones modulo `2^64`; unsigned subtraction `a - b` on
  `uint32_t` is `sub32`.
* Stateful concurrent code (the ticket lock) is modelled as an explicit
  transition system driven by a list of events; each event corresponds to one
  atomic instruction of the C++ source (`fetch_add`, the acquire load that
  observes `serving == my`, the release increment).
* Floating-point quantities (durations, throughput) are modelled over `ℚ`.
-/

namespace LockTest

/-- `2^32`, the modulus of `std::uint32_t` arithmetic. -/
def U32 : Nat := 4294967296

/-- `2^64`, the modulus of `std::uint64_t` arithmetic. -/
def U64 : Nat := 18446744073709551616

/-- Reduction of a natural number to its `uint32_t` value. -/
def u32 (x : Nat) : Nat := x % U32

/-- Unsigned 32-bit subtraction `a - b` (wrap-around), as computed by
`std::uint32_t` subtraction in the C++ source. -/
def sub32 (a b : Nat) : Nat := (u32 a + (U32 - u32 b)) % U32

theorem u32_lt (x : Nat) : u32 x < U32 := Nat.mod_lt _ (by decide)

theorem u32_of_lt {x : Nat} (h : x < U32) : u32 x = x := Nat.mod_eq_of_lt h

/-- On in-range values, `sub32 a b` recovers the true difference `a - b`
whenever `b ≤ a` and the difference fits in 32 bits. -/
theorem sub32_eq_of_le {a b : Nat} (hba : b ≤ a) (hd : a - b < U32) :
    sub32 (u32 a) (u32 b) = a - b := by
  unfold sub32 u32 U32 at *
  omega

/-! ## Back-off behaviour of `TicketBackOff` and `TicketAdaptive`

`TicketBackOff::lock` (src/include/locks/TicketLock.h:118-129) spins on
`serving_`; on each observation `s ≠ my` it computes
`d = my - s` (`uint32_t` wrap-around) and calls
`cpu_relax_n((d > 0 ? d - 1 : 0) * 32u + 16u)`.  The loop body contains no
call into the OS scheduler.  `TicketAdaptive::lock`
(src/include/locks/TicketLock.h:173-191) instead uses a piecewise schedule.
-/

/-- One action performed by a waiting worker between two observations of
`serving_`: how many CPU relax cycles it pauses for, and whether it yields
to the OS scheduler. -/
structure WaitAction where
  pauses : Nat
  osYield : Bool
deriving DecidableEq

/-- `pauseIters` computed by `TicketBackOff::lock` from the distance `d`:
`(d > 0 ? d - 1 : 0) * 32u + 16u`, evaluated in `unsigned` (32-bit)
arithmetic, so the multiplication and the addition wrap modulo `2^32`. -/
def ticketBackOffPause (d : Nat) : Nat :=
  ((if 0 < d then d - 1 else 0) * 32 % U32 + 16) % U32

/-- The outer wrap in `ticketBackOffPause` never fires: the wrapped multiple
of 32 is at most `2^32 − 32`, so adding 16 stays below `2^32`. -/
theorem ticketBackOffPause_eq (d : Nat) :
    ticketBackOffPause d = (if 0 < d then d - 1 else 0) * 32 % U32 + 16 := by
  rw [ticketBackOffPause]
  have h1 : (if 0 < d then d - 1 else 0) * 32 % U32 < U32 :=
    Nat.mod_lt _ (by rw [U32]; omega)
  have h2 : 32 ∣ (if 0 < d then d - 1 else 0) * 32 % U32 :=
    (Nat.dvd_mod_iff (by rw [U32]; decide)).mpr
      (dvd_mul_left 32 (if 0 < d then d - 1 else 0))
  have h3 : (if 0 < d then d - 1 else 0) * 32 % U32 + 16 < U32 := by
    rw [U32] at h1 h2 ⊢
    omega
  exact Nat.mod_eq_of_lt h3

/-- The wait action `TicketBackOff::lock` performs after observing
`serving_ == s` while holding ticket `my` (no OS yield appears in the loop
body). -/
def ticketBackOffWait (my s : Nat) : WaitAction :=
  { pauses := ticketBackOffPause (sub32 my s), osYield := false }

/-- The spin loop of `TicketBackOff::lock`, driven by the list of values the
acquire loads of `serving_` return: it stops at the first observation equal
to `my` (second component `true` = acquired) and otherwise emits the wait
action for that observation. -/
def ticketBackOffSpin (my : Nat) : List Nat → List WaitAction × Bool
  | [] => ([], false)
  | s :: rest =>
    if s = my then ([], true)
    else
      let r := ticketBackOffSpin my rest
      (ticketBackOffWait my s :: r.1, r.2)

/-- `pauseIters` computed by `TicketAdaptive::lock` from the distance `d`:
`16` for `d ≤ 1`, `32 + (d-1)*16` for `d ≤ 4`, `128 + (d-4)*16` for
`d ≤ 16`, and `512` beyond. -/
def ticketAdaptivePause (d : Nat) : Nat :=
  if d ≤ 1 then 16
  else if d ≤ 4 then 32 + (d - 1) * 16
  else if d ≤ 16 then 128 + (d - 4) * 16
  else 512

/-- The wait action `TicketAdaptive::lock` performs after observing
`serving_ == s` with ticket `my` (its loop body never calls into the OS). -/
def ticketAdaptiveWait (my s : Nat) : WaitAction :=
  { pauses := ticketAdaptivePause (sub32 my s), osYield := false }

/-- The spin loop of `TicketAdaptive::lock`, driven by the observed values of
`serving_`. -/
def ticketAdaptiveSpin (my : Nat) : List Nat → List WaitAction × Bool
  | [] => ([], false)
  | s :: rest =>
    if s = my then ([], true)
    else
      let r := ticketAdaptiveSpin my rest
      (ticketAdaptiveWait my s :: r.1, r.2)

/-- Claim C4 formalised from the specification's words: some tunable pair
`(base_wait, wait_next)` in the documented ranges makes the back-off pause
`distance × base_wait` for `distance > 1` and `wait_next` for
`distance = 1`, and the worker yields to the OS whenever `distance > 20`. -/
def ticketBackOffSpecClaim : Prop :=
  ∃ base_wait wait_next : Nat,
    4 ≤ base_wait ∧ base_wait ≤ 512 ∧ 1 ≤ wait_next ∧ wait_next ≤ 128 ∧
    ∀ my s : Nat, my < U32 → s < U32 → s ≠ my →
      (1 < sub32 my s →
        (ticketBackOffWait my s).pauses = sub32 my s * base_wait) ∧
      (sub32 my s = 1 → (ticketBackOffWait my s).pauses = wait_next) ∧
      (20 < sub32 my s → (ticketBackOffWait my s).osYield = true)

theorem ticketBackOffSpin_no_yield (my : Nat) (obs : List Nat) :
    ∀ a ∈ (ticketBackOffSpin my obs).1, a.osYield = false := by
  induction obs with
  | nil => intro a ha; simp [ticketBackOffSpin] at ha
  | cons s rest ih =>
    intro a ha
    by_cases hs : s = my
    · simp [ticketBackOffSpin, hs] at ha
    · simp only [ticketBackOffSpin, if_neg hs, List.mem_cons] at ha
      rcases ha with rfl | ha
      · rfl
      · exact ih a ha

theorem ticketAdaptiveSpin_no_yield (my : Nat) (obs : List Nat) :
    ∀ a ∈ (ticketAdaptiveSpin my obs).1, a.osYield = false := by
  induction obs with
  | nil => intro a ha; simp [ticketAdaptiveSpin] at ha
  | cons s rest ih =>
    intro a ha
    by_cases hs : s = my
    · simp [ticketAdaptiveSpin, hs] at ha
    · simp only [ticketAdaptiveSpin, if_neg hs, List.mem_cons] at ha
      rcases ha with rfl | ha
      · rfl
      · exact ih a ha

theorem sub32_pos_of_ne {my s : Nat} (hmy : my < U32) (hs : s < U32)
    (hne : s ≠ my) : 1 ≤ sub32 my s := by
  unfold sub32 u32 U32 at *
  omega

/-- C4, counterexample: the claim as stated is false for the code.  At
`my = 21`, `s = 0` the distance is `21 > 20`, yet the wait action performed
by `TicketBackOff::lock` does not yield to the OS (its loop body contains no
scheduler call), so no admissible `(base_wait, wait_next)` pair satisfies the
claim. -/
theorem ticketBackOff_claim_false : ¬ ticketBackOffSpecClaim := by
  rintro ⟨bw, wn, -, -, -, -, h⟩
  have h21 := (h 21 0 (by decide) (by decide) (by decide)).2.2
  have : (20 : Nat) < sub32 21 0 := by decide
  have hy := h21 this
  simp [ticketBackOffWait] at hy

/-- C4, amended: while waiting with distance `d = my − serving` (32-bit
unsigned, necessarily `≥ 1` while waiting), the worker pauses for
`(d − 1) × 32 mod 2^32 + 16` CPU relax cycles — the `unsigned` product
wraps, so this is `16` when `d = 1` and again whenever `(d − 1) × 32` wraps
to a multiple of `2^32` (e.g. `d = 2^27 + 1`) — and never yields to the OS
scheduler, at no distance. -/
theorem ticketBackOff_wait_shape (my s : Nat) (obs : List Nat)
    (hmy : my < U32) (hs : s < U32) (hne : s ≠ my) :
    1 ≤ sub32 my s ∧
    (ticketBackOffSpin my (s :: obs)).1.head? =
      some ⟨(sub32 my s - 1) * 32 % U32 + 16, false⟩ ∧
    ∀ a ∈ (ticketBackOffSpin my (s :: obs)).1, a.osYield = false := by
  have hpos := sub32_pos_of_ne hmy hs hne
  refine ⟨hpos, ?_, ticketBackOffSpin_no_yield my (s :: obs)⟩
  have hsm : s ≠ my := hne
  simp [ticketBackOffSpin, if_neg hsm, ticketBackOffWait, ticketBackOffPause_eq,
    if_pos hpos]
  have hpos' : 0 < sub32 my s := hpos
  rw [if_pos hpos']

/-- Witness for `ticketBackOff_wait_shape` at `my = 5`, `s = 3`, and at the
wrap point `my = 2^27 + 1`, `s = 0`, where the code pauses only 16 cycles. -/
theorem ticketBackOff_wait_shape_witness :
    (1 ≤ sub32 5 3 ∧
      (ticketBackOffSpin 5 [3]).1.head? =
        some ⟨(sub32 5 3 - 1) * 32 % U32 + 16, false⟩ ∧
      ∀ a ∈ (ticketBackOffSpin 5 [3]).1, a.osYield = false) ∧
    (ticketBackOffSpin 134217729 [0]).1.head? = some ⟨16, false⟩ :=
  ⟨ticketBackOff_wait_shape 5 3 [] (by decide) (by decide) (by decide),
   ((ticketBackOff_wait_shape 134217729 0 [] (by decide) (by decide)
      (by decide)).2.1).trans (by decide)⟩

/-- C8: `TicketAdaptive`'s pause schedule is capped at `512` relax cycles for
every distance `d`, equals `16` near the head (`d ≤ 1`), ramps strictly
upward through the mid range, saturates at exactly `512` for all far
distances (`d ≥ 17`), and the spin loop never yields to the OS. -/
theorem ticketAdaptive_schedule (d : Nat) :
    ticketAdaptivePause d ≤ 512 ∧
    (d ≤ 1 → ticketAdaptivePause d = 16) ∧
    (17 ≤ d → ticketAdaptivePause d = 512) ∧
    (2 ≤ d → d < 17 → ticketAdaptivePause d < ticketAdaptivePause (d + 1)) ∧
    ∀ my obs, ∀ a ∈ (ticketAdaptiveSpin my obs).1, a.osYield = false := by
  refine ⟨?_, ?_, ?_, ?_, fun my obs => ticketAdaptiveSpin_no_yield my obs⟩
  · unfold ticketAdaptivePause; split <;> [omega; skip]
    split <;> [omega; skip]
    split <;> omega
  · intro h1; simp [ticketAdaptivePause, h1]
  · intro h17
    unfold ticketAdaptivePause
    split <;> [omega; skip]
    split <;> [omega; skip]
    split <;> omega
  · intro h2 h17
    interval_cases d <;> decide

/-- Witness for `ticketAdaptive_schedule`: concrete evaluations at `d = 1`,
`d = 8` and `d = 40`. -/
theorem ticketAdaptive_schedule_witness :
    ticketAdaptivePause 1 = 16 ∧ ticketAdaptivePause 8 < ticketAdaptivePause 9 ∧
    ticketAdaptivePause 40 = 512 :=
  ⟨(ticketAdaptive_schedule 1).2.1 (by decide),
   (ticketAdaptive_schedule 8).2.2.2.1 (by decide) (by decide),
   (ticketAdaptive_schedule 40).2.2.1 (by decide)⟩

/-! ## MCS lock: instruction trace of `lock`/`unlock`

`McsLock::lock` and `McsLock::unlock` (src/include/locks/McsLock.h:22-60)
perform a fixed sequence of atomic operations on the worker's queue node
`me`, the previous tail `prev`, the successor `succ` and the shared `tail_`
pointer.  We record that sequence as a list of abstract operations, each
tagged with its `std::memory_order`, parameterised by the run-time
resolution of the branches (was `prev`/`succ` null, did the CAS succeed,
how many spin iterations the waiting loops took). -/

/-- `std::memory_order` annotations appearing in the MCS code. -/
inductive MemOrder where
  | relaxed
  | acquire
  | release
  | acq_rel
deriving DecidableEq

/-- One atomic operation executed by `McsLock::lock`/`unlock`, tagged with
its memory order. -/
inductive McsOp where
  /-- `me.next.store(nullptr, o)` -/
  | storeMeNextNull (o : MemOrder)
  /-- `me.locked.store(v, o)` -/
  | storeMeLocked (v : Bool) (o : MemOrder)
  /-- `tail_.exchange(&me, o)` -/
  | exchangeTailMe (o : MemOrder)
  /-- `prev->next.store(&me, o)` -/
  | storePrevNextMe (o : MemOrder)
  /-- `me.locked.load(o)` -/
  | loadMeLocked (o : MemOrder)
  /-- `me.next.load(o)` -/
  | loadMeNext (o : MemOrder)
  /-- `tail_.compare_exchange_strong(&me → nullptr, o, relaxed)` -/
  | casTailMeNull (o : MemOrder)
  /-- `succ->locked.store(false, o)` -/
  | storeSuccLockedFalse (o : MemOrder)
deriving DecidableEq

/-- The operation trace of `McsLock::lock` (McsLock.h:22-39), translated
from the source: stores to `me`, the `acq_rel` exchange of `tail_`, then
`if (prev != nullptr)` link-and-spin (`spins` loads observe `true`, the
final load observes `false`) else the relaxed store `me.locked := false`. -/
def mcsLockOps (prevNull : Bool) (spins : Nat) : List McsOp :=
  [.storeMeNextNull .relaxed, .storeMeLocked true .relaxed,
   .exchangeTailMe .acq_rel] ++
  (if prevNull = false then
     .storePrevNextMe .release ::
       (List.replicate spins (.loadMeLocked .acquire) ++
        [.loadMeLocked .acquire])
   else [.storeMeLocked false .relaxed])

/-- The operation trace of `McsLock::unlock` (McsLock.h:41-60), translated
from the source: acquire load of `me.next`; if it was null, the CAS of
`tail_` (returning on success), else/on failure the do-while reload of
`me.next` (when the CAS failed) followed by the release store to the
successor and the relaxed clearing of `me.next`. -/
def mcsUnlockOps (succNull casOk : Bool) (reloads : Nat) : List McsOp :=
  .loadMeNext .acquire ::
  (if succNull then
     .casTailMeNull .acq_rel ::
       (if casOk then []
        else (List.replicate reloads (.loadMeNext .acquire) ++
              [.loadMeNext .acquire]) ++
             [.storeSuccLockedFalse .release, .storeMeNextNull .relaxed])
   else [.storeSuccLockedFalse .release, .storeMeNextNull .relaxed])

/-- The acquire steps exactly as worded in the specification (§4.B.8):
`me.next := null`, `me.locked := true` (relaxed); `prev := tail.exchange`
(acq_rel); if `prev == null` store `me.locked := false` (relaxed) and
return, otherwise `prev.next := &me` (release) and spin on `me.locked`
(acquire) until false. -/
def mcsLockSpecOps (prevNull : Bool) (spins : Nat) : List McsOp :=
  [.storeMeNextNull .relaxed, .storeMeLocked true .relaxed,
   .exchangeTailMe .acq_rel] ++
  (if prevNull then [.storeMeLocked false .relaxed]
   else .storePrevNextMe .release ::
     (List.replicate spins (.loadMeLocked .acquire) ++
      [.loadMeLocked .acquire]))

/-- The release steps exactly as worded in the specification (§4.B.8):
`succ := me.next.load(acquire)`; if `succ == null` CAS `tail` from `&me` to
`null` (acq_rel) and return on success, otherwise re-load `me.next` until
non-null; then `succ->locked := false` (release) and `me.next := null`
(relaxed). -/
def mcsUnlockSpecOps (succNull casOk : Bool) (reloads : Nat) : List McsOp :=
  [.loadMeNext .acquire] ++
  (if succNull then
     if casOk then [.casTailMeNull .acq_rel]
     else [.casTailMeNull .acq_rel] ++
          (List.replicate reloads (.loadMeNext .acquire) ++
           [.loadMeNext .acquire]) ++
          [.storeSuccLockedFalse .release, .storeMeNextNull .relaxed]
   else [.storeSuccLockedFalse .release, .storeMeNextNull .relaxed])

/-- C2: for every branch resolution and every number of spin/reload
iterations, the instruction traces of `McsLock::lock` and `McsLock::unlock`
coincide exactly — operations, operands and memory orders — with the MCS
steps worded in the specification. -/
theorem mcsLock_refines_spec (prevNull succNull casOk : Bool)
    (spins reloads : Nat) :
    mcsLockOps prevNull spins = mcsLockSpecOps prevNull spins ∧
    mcsUnlockOps succNull casOk reloads = mcsUnlockSpecOps succNull casOk reloads := by
  constructor
  · cases prevNull <;> simp [mcsLockOps, mcsLockSpecOps]
  · cases succNull <;> cases casOk <;> simp [mcsUnlockOps, mcsUnlockSpecOps]

/-! ## Argument validation (`parse_args`) and harness aggregation

`parse_args` (src/src/main.cpp:56-129) parses the CLI options and ends with
the normalisation block at main.cpp:125-128:

```cpp
if (out.explicitThreads && out.threads <= 0) out.threads = 1;
if (out.duration <= 0.0) out.duration = 1.0;
if (out.repeats <= 0) out.repeats = 1;
return true;
```

No code path in `parse_args` returns `false` because of a non-positive
worker count or duration (only `-h`/`--help` and unknown options return
`false`), and `LockTestSys::run_test` (src/src/lockTestSys.cpp:93-99) checks
only `assert(lock_ && task_)` — it never validates `numThreads_` or the
duration.  We embed the fields of `Args` this block touches (`double` is
modelled over `ℚ`). -/

/-- The fields of `Args` (main.cpp:20-38) involved in validation; the
remaining fields are presentation glue (CSV flags, lock/task names, sweep
lists) that the normalisation block does not touch. -/
structure Args where
  threads : Int
  explicitThreads : Bool
  duration : ℚ
  repeats : Int
deriving DecidableEq

/-- The final normalisation block of `parse_args` (main.cpp:125-128): clamp
non-positive values to defaults and accept (`true`). -/
def parse_args_finalize (a : Args) : Args × Bool :=
  ({ a with
      threads := if a.explicitThreads = true ∧ a.threads ≤ 0 then 1 else a.threads
      duration := if a.duration ≤ 0 then 1 else a.duration
      repeats := if a.repeats ≤ 0 then 1 else a.repeats }, true)

/-- Claim C5 as stated: an explicitly supplied worker count `≤ 0` or a
duration `≤ 0` causes the run to be refused (parse returns `false`). -/
def rejectsInvalidArgsClaim : Prop :=
  ∀ a : Args, ((a.explicitThreads = true ∧ a.threads ≤ 0) ∨ a.duration ≤ 0) →
    (parse_args_finalize a).2 = false

/-- C5, counterexample: with `-t 0` and `-d -1` (`threads = 0` explicitly
given, `duration = -1`) `parse_args` still accepts: it returns `true` with
`threads` silently replaced by `1` and `duration` by `1.0`. -/
theorem rejectsInvalidArgs_false : ¬ rejectsInvalidArgsClaim := by
  intro h
  have := h ⟨0, true, -1, 5⟩ (Or.inl ⟨rfl, le_refl 0⟩)
  simp [parse_args_finalize] at this

/-- C5, amended: a worker count `≤ 0` (when explicitly given) and a duration
`≤ 0` are not rejected: `parse_args` accepts every such input and silently
replaces the worker count by `1` and the duration by `1.0`, leaving valid
values unchanged. -/
theorem parse_args_clamps (a : Args) :
    (parse_args_finalize a).2 = true ∧
    (a.explicitThreads = true → a.threads ≤ 0 →
      (parse_args_finalize a).1.threads = 1) ∧
    (a.duration ≤ 0 → (parse_args_finalize a).1.duration = 1) ∧
    (0 < a.threads → (parse_args_finalize a).1.threads = a.threads) ∧
    (a.explicitThreads = false → (parse_args_finalize a).1.threads = a.threads) ∧
    (0 < a.duration → (parse_args_finalize a).1.duration = a.duration) := by
  refine ⟨rfl, ?_, ?_, ?_, ?_, ?_⟩
  · intro he ht; simp [parse_args_finalize, he, ht]
  · intro hd; simp [parse_args_finalize, hd]
  · intro ht
    have : ¬ (a.explicitThreads = true ∧ a.threads ≤ 0) := by
      rintro ⟨-, h⟩; omega
    simp [parse_args_finalize, this]
  · intro he
    have : ¬ (a.explicitThreads = true ∧ a.threads ≤ 0) := by
      rintro ⟨h, -⟩; rw [he] at h; exact Bool.false_ne_true h
    simp [parse_args_finalize, this]
  · intro hd
    have : ¬ a.duration ≤ 0 := not_le.mpr hd
    simp [parse_args_finalize, this]

/-- Witness for `parse_args_clamps` at `threads = 0` (explicit),
`duration = -1`. -/
theorem parse_args_clamps_witness :
    (parse_args_finalize ⟨0, true, -1, 5⟩).2 = true ∧
    (parse_args_finalize ⟨0, true, -1, 5⟩).1.threads = 1 ∧
    (parse_args_finalize ⟨0, true, -1, 5⟩).1.duration = 1 :=
  ⟨(parse_args_clamps ⟨0, true, -1, 5⟩).1,
   (parse_args_clamps ⟨0, true, -1, 5⟩).2.1 rfl (le_refl 0),
   (parse_args_clamps ⟨0, true, -1, 5⟩).2.2.1 (by norm_num)⟩

/-! ## Harness aggregation and reported throughput

`LockTestSys::run_test` (src/src/lockTestSys.cpp:140-150) joins the workers
and then sums the per-worker result slots into a `std::uint64_t`:

```cpp
std::uint64_t total = 0;
...
for (int i = 0; i < numThreads_; ++i) total += results[i].count;
return total;
```

`main` (src/src/main.cpp:282-288) calls `run_test` once per repeat,
averages the totals (`avg`, main.cpp:253-255) and reports
`lock_qps = avg_lock_ops / args.duration`.  Worker counts and the `double`
quantities are modelled as the list of slot values (`Nat`, each `< 2^64`)
and `ℚ` respectively. -/

/-- The aggregation loop of `run_test`: `uint64_t total = 0; total +=
results[i].count` over the slots, with 64-bit wrap-around at each step. -/
def run_test_total (counts : List Nat) : Nat :=
  counts.foldl (fun total c => (total + c) % U64) 0

/-- The `avg` lambda of `main` (main.cpp:253-255): sum of the per-repeat
totals divided by their number, `0` on an empty list. -/
def avgOps (v : List ℚ) : ℚ := if v = [] then 0 else v.sum / v.length

/-- `lock_qps = avg_lock_ops / args.duration` (main.cpp:287-288). -/
def lock_qps (totals : List ℚ) (duration : ℚ) : ℚ := avgOps totals / duration

theorem run_test_total_go (counts : List Nat) :
    ∀ acc : Nat, acc < U64 →
      counts.foldl (fun total c => (total + c) % U64) acc =
        (acc + counts.sum) % U64 := by
  induction counts with
  | nil => intro acc hacc; simp [Nat.mod_eq_of_lt hacc]
  | cons c rest ih =>
    intro acc hacc
    have h1 : (acc + c) % U64 < U64 := Nat.mod_lt _ (by decide)
    calc (c :: rest).foldl (fun total c => (total + c) % U64) acc
        = rest.foldl (fun total c => (total + c) % U64) ((acc + c) % U64) := rfl
      _ = ((acc + c) % U64 + rest.sum) % U64 := ih _ h1
      _ = (acc + c + rest.sum) % U64 := by rw [Nat.mod_add_mod]
      _ = (acc + (c :: rest).sum) % U64 := by
            simp [List.sum_cons, Nat.add_assoc]

/-- Claim C3 as stated: the value returned by each harness run is the sum of
the slots, and the throughput the program reports equals that run's total
divided by the duration `D`. -/
def reportedThroughputClaim : Prop :=
  (∀ counts : List Nat, run_test_total counts = counts.sum) ∧
  ∀ (totals : List ℚ) (D : ℚ), 0 < D → ∀ t ∈ totals, lock_qps totals D = t / D

/-- C3, counterexample: with the default `repeats = 5` the reported
throughput is the mean of the repeats' totals over the duration, not an
individual run's total over the duration: already for two repeats returning
`100` and `200` ops with `D = 1`, the program reports `150 ops/s`, not
`100 ops/s`. -/
theorem reportedThroughput_claim_false : ¬ reportedThroughputClaim := by
  rintro ⟨-, h⟩
  have := h [100, 200] 1 (by norm_num) 100 (by simp)
  rw [lock_qps, avgOps,
    if_neg (show ¬([100, 200] : List ℚ) = [] by simp)] at this
  norm_num at this

/-- C3, amended: `run_test` returns the 64-bit sum of the per-worker slot
counts — exactly the sum whenever it fits in 64 bits — and the reported
throughput is the mean of the repeats' totals divided by the duration `D`,
which for a single repeat is that total divided by `D`. -/
theorem run_test_total_and_qps (counts : List Nat) (totals : List ℚ)
    (t D : ℚ) :
    run_test_total counts = counts.sum % U64 ∧
    (counts.sum < U64 → run_test_total counts = counts.sum) ∧
    lock_qps [t] D = t / D ∧
    (totals ≠ [] → lock_qps totals D = totals.sum / (totals.length * D)) := by
  have hgo := run_test_total_go counts 0 (by decide)
  refine ⟨by simpa [run_test_total] using hgo, ?_, ?_, ?_⟩
  · intro hlt
    have : run_test_total counts = counts.sum % U64 := by
      simpa [run_test_total] using hgo
    rw [this, Nat.mod_eq_of_lt hlt]
  · simp [lock_qps, avgOps]
  · intro hne
    rw [lock_qps, avgOps, if_neg hne, div_div]

/-- Witness for `run_test_total_and_qps`: slots `[30, 40]`, one repeat of
`100` ops, duration `2 s`. -/
theorem run_test_total_and_qps_witness :
    run_test_total [30, 40] = 70 ∧ lock_qps [(100 : ℚ)] 2 = 100 / 2 :=
  ⟨by
    have h := (run_test_total_and_qps [30, 40] [100] 100 2).2.1 (by decide)
    simpa using h,
   (run_test_total_and_qps [30, 40] [100] 100 2).2.2.1⟩

/-! ## The per-worker measurement loop (`thread_func_lock`)

`thread_func_lock` (src/src/lockTestSys.cpp:53-89) runs, after the start
barrier:

```cpp
for (;;) {
    if ((localCount & (checkEvery - 1)) == 0) {          // checkEvery = 64
        if (ctx->timing->stop.load(std::memory_order_acquire)) break;
    }
    ctx->task->run_parallel();
    ctx->lock->lock();
    ctx->task->run_locked();
    ctx->lock->unlock();
    ++localCount;
}
ctx->resultSlot->count = localCount;                      // single write
```

The loop is driven by the successive values the acquire loads of `stop`
return (`obs`); `fuel` bounds the number of loop iterations so the model is
structurally recursive, and a run that exhausts `fuel` or `obs` yields
`none` (all theorems are about completed runs). -/

/-- Events of one worker's measurement loop. -/
inductive WorkerEv where
  /-- acquire load of the `stop` flag, performed at local count `count` -/
  | checkEv (count : Nat)
  /-- `task->run_parallel()` -/
  | parEv
  /-- `lock->lock()` -/
  | lockEv
  /-- `task->run_locked()` -/
  | lockedEv
  /-- `lock->unlock()` -/
  | unlockEv
  /-- `resultSlot->count = localCount` -/
  | writeEv (count : Nat)
deriving DecidableEq

/-- The loop of `thread_func_lock`, returning the final local count and the
event trace of a completed run. -/
def thread_func_loop : List Bool → Nat → Nat → Option (Nat × List WorkerEv)
  | _, 0, _ => none
  | obs, fuel + 1, localCount =>
    if localCount &&& 63 = 0 then
      match obs with
      | [] => none
      | b :: rest =>
        if b then some (localCount, [.checkEv localCount, .writeEv localCount])
        else
          match thread_func_loop rest fuel (localCount + 1) with
          | none => none
          | some (c, evs) =>
            some (c, .checkEv localCount :: .parEv :: .lockEv :: .lockedEv ::
              .unlockEv :: evs)
    else
      match thread_func_loop obs fuel (localCount + 1) with
      | none => none
      | some (c, evs) =>
        some (c, .parEv :: .lockEv :: .lockedEv :: .unlockEv :: evs)

/-- The local counts at which the worker sampled the `stop` flag. -/
def checkCounts (evs : List WorkerEv) : List Nat :=
  evs.filterMap fun e => match e with | .checkEv n => some n | _ => none

/-- The values written to the worker's result slot. -/
def writeCounts (evs : List WorkerEv) : List Nat :=
  evs.filterMap fun e => match e with | .writeEv n => some n | _ => none

/-- The trace with the stop checks and the slot write removed: the lock/task
calls. -/
def bodyEvs (evs : List WorkerEv) : List WorkerEv :=
  evs.filter fun e =>
    match e with | .checkEv _ => false | .writeEv _ => false | _ => true

/-- The body of one iteration, in source order. -/
def iterBlock : List WorkerEv := [.parEv, .lockEv, .lockedEv, .unlockEv]

theorem and63_eq_mod (x : Nat) : x &&& 63 = x % 64 := by
  have h := Nat.and_pow_two_sub_one_eq_mod x 6
  norm_num at h
  exact h

theorem thread_func_loop_spec (fuel : Nat) :
    ∀ (obs : List Bool) (n c : Nat) (evs : List WorkerEv),
      thread_func_loop obs fuel n = some (c, evs) →
      n ≤ c ∧ c % 64 = 0 ∧
      (checkCounts evs).head? = some (64 * ((n + 63) / 64)) ∧
      (checkCounts evs).getLast? = some c ∧
      List.Chain' (fun a b => b = a + 64) (checkCounts evs) ∧
      (∀ k ∈ checkCounts evs, k % 64 = 0) ∧
      writeCounts evs = [c] ∧
      bodyEvs evs = (List.replicate (c - n) iterBlock).flatten := by
  induction fuel with
  | zero => intro obs n c evs h; simp [thread_func_loop] at h
  | succ fuel ih =>
    intro obs n c evs h
    simp only [thread_func_loop] at h
    by_cases hn : n &&& 63 = 0
    · rw [if_pos hn] at h
      have hn64 : n % 64 = 0 := by rw [← and63_eq_mod]; exact hn
      match obs with
      | [] => simp at h
      | b :: rest =>
        dsimp only at h
        by_cases hb : b = true
        · rw [if_pos hb] at h
          simp only [Option.some.injEq, Prod.mk.injEq] at h
          obtain ⟨rfl, rfl⟩ := h
          refine ⟨le_refl _, hn64, ?_, ?_, ?_, ?_, ?_, ?_⟩ <;>
            simp [checkCounts, writeCounts, bodyEvs, List.filterMap] <;> omega
        · rw [if_neg hb] at h
          match hrec : thread_func_loop rest fuel (n + 1) with
          | none => rw [hrec] at h; simp at h
          | some (c', evs') =>
            rw [hrec] at h
            simp only [Option.some.injEq, Prod.mk.injEq] at h
            obtain ⟨rfl, rfl⟩ := h
            obtain ⟨hle, hc64, hhead, hlast, hchain, hall, hwr, hbody⟩ :=
              ih rest (n + 1) c' evs' hrec
            have hcc : checkCounts (WorkerEv.checkEv n :: WorkerEv.parEv ::
                WorkerEv.lockEv :: WorkerEv.lockedEv :: WorkerEv.unlockEv ::
                evs') = n :: checkCounts evs' := by
              simp [checkCounts, List.filterMap]
            have hhead' : (checkCounts evs').head? = some (n + 64) := by
              rw [hhead]; congr 1; omega
            refine ⟨by omega, hc64, ?_, ?_, ?_, ?_, ?_, ?_⟩
            · rw [hcc]; simp; omega
            · rw [hcc]
              rcases hcne : checkCounts evs' with - | ⟨k, l⟩
              · rw [hcne] at hhead'; simp at hhead'
              · rw [hcne] at hlast
                rw [List.getLast?_cons_cons]
                rw [← hcne] at hlast ⊢
                exact hlast
            · rw [hcc]
              rcases hcne : checkCounts evs' with - | ⟨k, l⟩
              · simp
              · rw [hcne] at hhead' hchain
                simp only [List.head?_cons, Option.some.injEq] at hhead'
                exact List.chain'_cons.mpr ⟨by omega, hchain⟩
            · rw [hcc]
              intro k hk
              rcases List.mem_cons.mp hk with rfl | hk
              · exact hn64
              · exact hall k hk
            · simpa [writeCounts, List.filterMap] using hwr
            · have : c' - n = (c' - (n + 1)) + 1 := by omega
              simp only [bodyEvs, List.filter] at hbody ⊢
              rw [this, List.replicate_succ, List.flatten_cons]
              simpa [iterBlock] using hbody
    · rw [if_neg hn] at h
      have hn64 : n % 64 ≠ 0 := by rw [← and63_eq_mod]; exact hn
      match hrec : thread_func_loop obs fuel (n + 1) with
      | none => rw [hrec] at h; simp at h
      | some (c', evs') =>
        rw [hrec] at h
        simp only [Option.some.injEq, Prod.mk.injEq] at h
        obtain ⟨rfl, rfl⟩ := h
        obtain ⟨hle, hc64, hhead, hlast, hchain, hall, hwr, hbody⟩ :=
          ih obs (n + 1) c' evs' hrec
        have hcc : checkCounts (WorkerEv.parEv :: WorkerEv.lockEv ::
            WorkerEv.lockedEv :: WorkerEv.unlockEv :: evs') =
            checkCounts evs' := by
          simp [checkCounts, List.filterMap]
        refine ⟨by omega, hc64, ?_, ?_, ?_, ?_, ?_, ?_⟩
        · rw [hcc, hhead]; congr 1; omega
        · rw [hcc]; exact hlast
        · rw [hcc]; exact hchain
        · rw [hcc]; exact hall
        · simpa [writeCounts, List.filterMap] using hwr
        · have : c' - n = (c' - (n + 1)) + 1 := by omega
          simp only [bodyEvs, List.filter] at hbody ⊢
          rw [this, List.replicate_succ, List.flatten_cons]
          simpa [iterBlock] using hbody

/-- C7: a completed run of the measurement loop samples the `stop` flag
exactly at the local counts divisible by 64 — starting at `0`, consecutive
samples exactly 64 apart, so at most 63 iterations lie strictly between two
consecutive stop checks — finishes at a count divisible by 64 at the check
that observed `stop`, writes the final count to the result slot exactly
once, and in between runs, per counted iteration, exactly the block
`run_parallel(); lock(); run_locked(); unlock()` in source order. -/
theorem thread_func_lock_shape (obs : List Bool) (fuel c : Nat)
    (evs : List WorkerEv) (h : thread_func_loop obs fuel 0 = some (c, evs)) :
    c % 64 = 0 ∧
    (checkCounts evs).head? = some 0 ∧
    (checkCounts evs).getLast? = some c ∧
    List.Chain' (fun a b => b = a + 64) (checkCounts evs) ∧
    (∀ k ∈ checkCounts evs, k % 64 = 0) ∧
    writeCounts evs = [c] ∧
    bodyEvs evs = (List.replicate c iterBlock).flatten := by
  obtain ⟨-, hc64, hhead, hlast, hchain, hall, hwr, hbody⟩ :=
    thread_func_loop_spec fuel obs 0 c evs h
  exact ⟨hc64, by simpa using hhead, hlast, hchain, hall, hwr,
    by simpa using hbody⟩

/-- Witness for `thread_func_lock_shape`: the `stop` flag is already set at
the first check, so the loop exits immediately with count `0`. -/
theorem thread_func_lock_shape_witness :
    (0 : Nat) % 64 = 0 ∧
    (checkCounts [.checkEv 0, .writeEv 0]).head? = some 0 ∧
    (checkCounts [.checkEv 0, .writeEv 0]).getLast? = some 0 ∧
    List.Chain' (fun a b => b = a + 64) (checkCounts [.checkEv 0, .writeEv 0]) ∧
    (∀ k ∈ checkCounts [.checkEv 0, .writeEv 0], k % 64 = 0) ∧
    writeCounts [.checkEv 0, .writeEv 0] = [0] ∧
    bodyEvs [.checkEv 0, .writeEv 0] = (List.replicate 0 iterBlock).flatten :=
  thread_func_lock_shape [true] 1 0 [.checkEv 0, .writeEv 0] (by decide)

/-! ## Ticket lock transition system

`TicketLock`/`TicketBackOff`/`TicketBackOffAndPreFetch`/`TicketAdaptive`
(src/include/locks/TicketLock.h) share the same state: two `uint32_t`
atomic counters `next_` and `serving_` starting at `0/0`.  `lock()` is
`my = next_.fetch_add(1, relaxed)` followed by spinning until an acquire
load of `serving_` equals `my` (compared as `uint32_t`); `unlock()` is
`serving_.fetch_add(1, release)`.

We model an execution as an interleaving of the three atomic events —
taking a ticket, the successful acquire load (`serving == my`, 32-bit
comparison), and the release increment — per worker `w : Fin N`, driven by
an event list.  The ghost fields `next`/`serving` count the operations over
`Nat`; the machine's `uint32_t` register values are `u32 next`/`u32
serving`, and every guard in the step function uses only the 32-bit values,
exactly as the code does. -/

/-- Status of one worker with respect to a ticket lock: not participating,
spinning with ticket `t`, or inside the critical section with ticket `t`. -/
inductive WStatus where
  | idle
  | waiting (t : Nat)
  | holding (t : Nat)
deriving DecidableEq

/-- State of a ticket lock shared by `N` workers.  `next`/`serving` are the
ghost (unbounded) operation counts; the machine registers hold
`u32 next` / `u32 serving`. -/
structure TicketState (N : Nat) where
  next : Nat
  serving : Nat
  st : Fin N → WStatus

instance {N : Nat} : DecidableEq (TicketState N) := fun a b =>
  decidable_of_iff (a.next = b.next ∧ a.serving = b.serving ∧ a.st = b.st)
    (by
      constructor
      · rintro ⟨h1, h2, h3⟩
        cases a; cases b
        simp_all
      · rintro rfl; exact ⟨rfl, rfl, rfl⟩)

/-- Initial state of every ticket lock: `next_ = serving_ = 0`
(`AlignedAtomic` value-initialises both counters), nobody participating. -/
def initTicket (N : Nat) : TicketState N :=
  { next := 0, serving := 0, st := fun _ => .idle }

/-- The three atomic events of the ticket protocol. -/
inductive TEv (N : Nat) where
  /-- `my = next_.fetch_add(1, relaxed)` executed by `w` -/
  | take (w : Fin N)
  /-- the acquire load of `serving_` by `w` that observed its ticket value
  (32-bit equality), ending the spin -/
  | grant (w : Fin N) (t : Nat)
  /-- `serving_.fetch_add(1, release)` executed by `w` -/
  | release (w : Fin N) (t : Nat)
deriving DecidableEq

/-- One step of the ticket machine; `none` when the event is not enabled.
The `grant` guard compares the 32-bit register values, exactly as
`serving_.v.load(acquire) != my` does in the source. -/
def tstep {N : Nat} (s : TicketState N) : TEv N → Option (TicketState N)
  | .take w =>
    if s.st w = .idle then
      some { next := s.next + 1, serving := s.serving,
             st := Function.update s.st w (.waiting s.next) }
    else none
  | .grant w t =>
    if s.st w = .waiting t ∧ u32 s.serving = u32 t then
      some { next := s.next, serving := s.serving,
             st := Function.update s.st w (.holding t) }
    else none
  | .release w t =>
    if s.st w = .holding t then
      some { next := s.next, serving := s.serving + 1,
             st := Function.update s.st w .idle }
    else none

/-- Run the machine over an event list. -/
def trun {N : Nat} : TicketState N → List (TEv N) → Option (TicketState N)
  | s, [] => some s
  | s, e :: rest =>
    match tstep s e with
    | none => none
    | some s' => trun s' rest

/-- Worker `w` owns ticket `t`: it has taken `t` and not yet released it. -/
def owns {N : Nat} (s : TicketState N) (w : Fin N) (t : Nat) : Prop :=
  s.st w = .waiting t ∨ s.st w = .holding t

/-- The workers holding an issued-but-not-yet-released ticket. -/
def busy {N : Nat} (s : TicketState N) : Finset (Fin N) :=
  Finset.univ.filter fun w => s.st w ≠ .idle

/-- Is this status the critical-section one? -/
def isHolding : WStatus → Bool
  | .holding _ => true
  | _ => false

/-- `1` when some worker is inside the critical section, else `0`. -/
def heldBit {N : Nat} (s : TicketState N) : Nat :=
  if ∃ w, isHolding (s.st w) = true then 1 else 0

/-- Workers in the order in which their `fetch_add` on `next_` completed. -/
def takeOwners {N : Nat} (evs : List (TEv N)) : List (Fin N) :=
  evs.filterMap fun e => match e with | .take w => some w | _ => none

/-- Workers in the order in which they were granted the lock. -/
def grantOwners {N : Nat} (evs : List (TEv N)) : List (Fin N) :=
  evs.filterMap fun e => match e with | .grant w _ => some w | _ => none

/-- Tickets in the order in which they were granted. -/
def grantTickets {N : Nat} (evs : List (TEv N)) : List Nat :=
  evs.filterMap fun e => match e with | .grant _ t => some t | _ => none

/-- Number of release increments in the trace. -/
def releaseCount {N : Nat} (evs : List (TEv N)) : Nat :=
  (evs.filterMap fun e => match e with | .release _ t => some t | _ => none).length

/-- State invariant of the ticket machine. -/
structure SInv {N : Nat} (s : TicketState N) : Prop where
  /-- `serving` never overtakes `next` -/
  le : s.serving ≤ s.next
  /-- every owned ticket is issued and not yet served past -/
  bound : ∀ w t, owns s w t → s.serving ≤ t ∧ t < s.next
  /-- a ticket has at most one owner -/
  inj : ∀ w w' t, owns s w t → owns s w' t → w = w'
  /-- the critical section is entered only with the currently served ticket -/
  hold : ∀ w t, s.st w = .holding t → t = s.serving
  /-- `next − serving` counts the issued-but-not-yet-released tickets -/
  card_eq : (busy s).card = s.next - s.serving

theorem filter_update_ne_idle {N : Nat} (st : Fin N → WStatus) (w : Fin N)
    (v : WStatus) (hv : ¬ v = .idle) :
    (Finset.univ.filter fun w' => Function.update st w v w' ≠ .idle) =
      insert w (Finset.univ.filter fun w' => st w' ≠ .idle) := by
  ext w'
  by_cases h : w' = w
  · subst h; simp [Function.update_same, hv]
  · simp [Function.update_noteq h, h]

theorem filter_update_idle {N : Nat} (st : Fin N → WStatus) (w : Fin N) :
    (Finset.univ.filter fun w' => Function.update st w .idle w' ≠ .idle) =
      (Finset.univ.filter fun w' => st w' ≠ .idle).erase w := by
  ext w'
  by_cases h : w' = w
  · subst h; simp [Function.update_same]
  · simp [Function.update_noteq h, h]

theorem tstep_take_spec {N : Nat} {s s' : TicketState N} {w : Fin N}
    (h : tstep s (.take w) = some s') (hinv : SInv s) :
    s.st w = .idle ∧
    s'.next = s.next + 1 ∧ s'.serving = s.serving ∧
    s'.st = Function.update s.st w (.waiting s.next) ∧
    heldBit s' = heldBit s ∧
    SInv s' := by
  simp only [tstep] at h
  by_cases hw : s.st w = .idle
  · rw [if_pos hw] at h
    simp only [Option.some.injEq] at h
    have hnext : s'.next = s.next + 1 := by rw [← h]
    have hserv : s'.serving = s.serving := by rw [← h]
    have hst : s'.st = Function.update s.st w (.waiting s.next) := by rw [← h]
    have hb : ∀ w' t', owns s' w' t' ↔
        ((w' = w ∧ t' = s.next) ∨ (w' ≠ w ∧ owns s w' t')) := by
      intro w' t'
      rw [owns, owns, hst]
      by_cases hww : w' = w
      · subst hww
        rw [Function.update_same]
        constructor
        · rintro (h1 | h1)
          · exact Or.inl ⟨rfl, (WStatus.waiting.injEq _ _).mp h1.symm⟩
          · exact absurd h1 (by simp)
        · rintro (⟨-, rfl⟩ | ⟨hne, -⟩)
          · exact Or.inl rfl
          · exact absurd rfl hne
      · rw [Function.update_noteq hww]
        constructor
        · intro h1; exact Or.inr ⟨hww, h1⟩
        · rintro (⟨rfl, -⟩ | ⟨-, h1⟩)
          · exact absurd rfl hww
          · exact h1
    have hheld : heldBit s' = heldBit s := by
      rw [heldBit, heldBit]
      refine if_congr ⟨?_, ?_⟩ rfl rfl
      · rintro ⟨w', hw'⟩
        rw [hst] at hw'
        by_cases hww : w' = w
        · subst hww; rw [Function.update_same] at hw'
          simp [isHolding] at hw'
        · rw [Function.update_noteq hww] at hw'; exact ⟨w', hw'⟩
      · rintro ⟨w', hw'⟩
        by_cases hww : w' = w
        · subst hww; rw [hw] at hw'
          simp [isHolding] at hw'
        · refine ⟨w', ?_⟩
          rw [hst, Function.update_noteq hww]
          exact hw'
    refine ⟨hw, hnext, hserv, hst, hheld, ?_, ?_, ?_, ?_, ?_⟩
    · rw [hnext, hserv]; have := hinv.le; omega
    · intro w' t' ho
      rw [hnext, hserv]
      rcases (hb w' t').mp ho with ⟨-, rfl⟩ | ⟨-, ho⟩
      · exact ⟨hinv.le, by omega⟩
      · have := hinv.bound w' t' ho; omega
    · intro w1 w2 t' h1 h2
      rcases (hb w1 t').mp h1 with ⟨rfl, rfl⟩ | ⟨hn1, ho1⟩
      · rcases (hb w2 s.next).mp h2 with ⟨rfl, -⟩ | ⟨hn2, ho2⟩
        · rfl
        · have := hinv.bound w2 s.next ho2; omega
      · rcases (hb w2 t').mp h2 with ⟨rfl, rfl⟩ | ⟨hn2, ho2⟩
        · have := hinv.bound w1 s.next ho1; omega
        · exact hinv.inj w1 w2 t' ho1 ho2
    · intro w' t' ho
      rw [hst] at ho
      rw [hserv]
      by_cases hww : w' = w
      · subst hww
        rw [Function.update_same] at ho
        exact absurd ho (by simp)
      · rw [Function.update_noteq hww] at ho
        exact hinv.hold w' t' ho
    · have hbusy : busy s' = insert w (busy s) := by
        rw [busy, busy]
        simp only [hst]
        exact filter_update_ne_idle s.st w _ (by simp)
      have hwnot : w ∉ busy s := by simp [busy, hw]
      rw [hbusy, Finset.card_insert_of_not_mem hwnot, hinv.card_eq,
        hnext, hserv]
      have := hinv.le
      omega
  · rw [if_neg hw] at h
    simp at h

theorem isHolding_iff {v : WStatus} : isHolding v = true ↔ ∃ t, v = .holding t := by
  cases v <;> simp [isHolding]

theorem busy_card_le {N : Nat} (s : TicketState N) : (busy s).card ≤ N := by
  have h := Finset.card_le_univ (busy s)
  simpa using h

theorem tstep_grant_spec {N : Nat} {s s' : TicketState N} {w : Fin N} {t : Nat}
    (hN : N < U32)
    (h : tstep s (.grant w t) = some s') (hinv : SInv s) :
    s.st w = .waiting t ∧ t = s.serving ∧
    s'.next = s.next ∧ s'.serving = s.serving ∧
    s'.st = Function.update s.st w (.holding t) ∧
    heldBit s = 0 ∧ heldBit s' = 1 ∧
    (∀ w' t', owns s' w' t' ↔ owns s w' t') ∧
    SInv s' := by
  simp only [tstep] at h
  by_cases hg : s.st w = .waiting t ∧ u32 s.serving = u32 t
  · rw [if_pos hg] at h
    simp only [Option.some.injEq] at h
    obtain ⟨hw, heq⟩ := hg
    have hnext : s'.next = s.next := by rw [← h]
    have hserv : s'.serving = s.serving := by rw [← h]
    have hst : s'.st = Function.update s.st w (.holding t) := by rw [← h]
    have hbound := hinv.bound w t (Or.inl hw)
    have hcard : s.next - s.serving ≤ N := by
      rw [← hinv.card_eq]; exact busy_card_le s
    have ht : t = s.serving := by
      have h1 := hbound.1
      have h2 := hbound.2
      rw [u32, u32, U32] at heq
      rw [U32] at hN
      omega
    have hnohold : ¬ ∃ w', isHolding (s.st w') = true := by
      rintro ⟨w', hw'⟩
      obtain ⟨t', ht'⟩ := isHolding_iff.mp hw'
      have hts : t' = s.serving := hinv.hold w' t' ht'
      have hww : w = w' := hinv.inj w w' t (Or.inl hw)
        (Or.inr (by rw [ht', hts, ← ht]))
      rw [← hww, hw] at ht'
      exact absurd ht' (by simp)
    have hheld0 : heldBit s = 0 := by rw [heldBit, if_neg hnohold]
    have hheld1 : heldBit s' = 1 := by
      rw [heldBit, if_pos ?_]
      exact ⟨w, by rw [hst, Function.update_same]; rfl⟩
    have hb : ∀ w' t', owns s' w' t' ↔ owns s w' t' := by
      intro w' t'
      rw [owns, owns, hst]
      by_cases hww : w' = w
      · subst hww
        rw [Function.update_same, hw]
        constructor
        · rintro (h1 | h1)
          · exact absurd h1 (by simp)
          · exact Or.inl (by rw [(WStatus.holding.injEq _ _).mp h1])
        · rintro (h1 | h1)
          · exact Or.inr (by rw [(WStatus.waiting.injEq _ _).mp h1])
          · exact absurd h1 (by simp)
      · rw [Function.update_noteq hww]
    refine ⟨hw, ht, hnext, hserv, hst, hheld0, hheld1, hb, ?_, ?_, ?_, ?_, ?_⟩
    · rw [hnext, hserv]; exact hinv.le
    · intro w' t' ho
      rw [hnext, hserv]
      exact hinv.bound w' t' ((hb w' t').mp ho)
    · intro w1 w2 t' h1 h2
      exact hinv.inj w1 w2 t' ((hb w1 t').mp h1) ((hb w2 t').mp h2)
    · intro w' t' ho
      rw [hst] at ho
      rw [hserv]
      by_cases hww : w' = w
      · subst hww
        rw [Function.update_same] at ho
        rw [← (WStatus.holding.injEq _ _).mp ho]
        exact ht
      · rw [Function.update_noteq hww] at ho
        exact hinv.hold w' t' ho
    · have hmem : w ∈ busy s := by simp [busy, hw]
      have hbusy : busy s' = busy s := by
        rw [busy, busy]
        simp only [hst]
        rw [filter_update_ne_idle s.st w _ (by simp)]
        exact Finset.insert_eq_self.mpr hmem
      rw [hbusy, hnext, hserv]
      exact hinv.card_eq
  · rw [if_neg hg] at h
    simp at h

theorem tstep_release_spec {N : Nat} {s s' : TicketState N} {w : Fin N} {t : Nat}
    (h : tstep s (.release w t) = some s') (hinv : SInv s) :
    s.st w = .holding t ∧ t = s.serving ∧
    s'.next = s.next ∧ s'.serving = s.serving + 1 ∧
    s'.st = Function.update s.st w .idle ∧
    heldBit s = 1 ∧ heldBit s' = 0 ∧
    (∀ w' t', owns s' w' t' ↔ (w' ≠ w ∧ owns s w' t')) ∧
    SInv s' := by
  simp only [tstep] at h
  by_cases hw : s.st w = .holding t
  · rw [if_pos hw] at h
    simp only [Option.some.injEq] at h
    have hnext : s'.next = s.next := by rw [← h]
    have hserv : s'.serving = s.serving + 1 := by rw [← h]
    have hst : s'.st = Function.update s.st w .idle := by rw [← h]
    have ht : t = s.serving := hinv.hold w t hw
    have howns : owns s w s.serving := Or.inr (by rw [← ht]; exact hw)
    have hlt : s.serving < s.next := by
      have := hinv.bound w t (Or.inr hw); omega
    have hheld1 : heldBit s = 1 := by
      rw [heldBit, if_pos ?_]
      exact ⟨w, by rw [hw]; rfl⟩
    have hb : ∀ w' t', owns s' w' t' ↔ (w' ≠ w ∧ owns s w' t') := by
      intro w' t'
      rw [owns, owns, hst]
      by_cases hww : w' = w
      · subst hww
        rw [Function.update_same]
        constructor
        · rintro (h1 | h1) <;> exact absurd h1 (by simp)
        · rintro ⟨hne, -⟩; exact absurd rfl hne
      · rw [Function.update_noteq hww]
        exact ⟨fun h1 => ⟨hww, h1⟩, fun h1 => h1.2⟩
    have hnohold : ¬ ∃ w', isHolding (s'.st w') = true := by
      rintro ⟨w', hw'⟩
      obtain ⟨t', ht'⟩ := isHolding_iff.mp hw'
      have ho' : owns s' w' t' := Or.inr ht'
      obtain ⟨hne, ho⟩ := (hb w' t').mp ho'
      rw [hst] at ht'
      rw [Function.update_noteq hne] at ht'
      have hts : t' = s.serving := hinv.hold w' t' ht'
      exact hne (hinv.inj w' w s.serving (by rw [← hts]; exact ho) howns)
    have hheld0 : heldBit s' = 0 := by rw [heldBit, if_neg hnohold]
    refine ⟨hw, ht, hnext, hserv, hst, hheld1, hheld0, hb, ?_, ?_, ?_, ?_, ?_⟩
    · rw [hnext, hserv]; omega
    · intro w' t' ho
      rw [hnext, hserv]
      obtain ⟨hne, ho⟩ := (hb w' t').mp ho
      have hbd := hinv.bound w' t' ho
      have hts : t' ≠ s.serving := by
        intro hteq
        exact hne (hinv.inj w' w s.serving (by rw [← hteq]; exact ho) howns)
      omega
    · intro w1 w2 t' h1 h2
      exact hinv.inj w1 w2 t' ((hb w1 t').mp h1).2 ((hb w2 t').mp h2).2
    · intro w' t' ho
      exact absurd ⟨w', isHolding_iff.mpr ⟨t', ho⟩⟩ hnohold
    · have hmem : w ∈ busy s := by simp [busy, hw]
      have hbusy : busy s' = (busy s).erase w := by
        rw [busy, busy]
        simp only [hst]
        exact filter_update_idle s.st w
      rw [hbusy, Finset.card_erase_of_mem hmem, hinv.card_eq, hnext, hserv]
      omega
  · rw [if_neg hw] at h
    simp at h

theorem takeOwners_take {N : Nat} (w : Fin N) (evs : List (TEv N)) :
    takeOwners (.take w :: evs) = w :: takeOwners evs := rfl

theorem takeOwners_grant {N : Nat} (w : Fin N) (t : Nat) (evs : List (TEv N)) :
    takeOwners (.grant w t :: evs) = takeOwners evs := rfl

theorem takeOwners_release {N : Nat} (w : Fin N) (t : Nat) (evs : List (TEv N)) :
    takeOwners (.release w t :: evs) = takeOwners evs := rfl

theorem grantOwners_take {N : Nat} (w : Fin N) (evs : List (TEv N)) :
    grantOwners (.take w :: evs) = grantOwners evs := rfl

theorem grantOwners_grant {N : Nat} (w : Fin N) (t : Nat) (evs : List (TEv N)) :
    grantOwners (.grant w t :: evs) = w :: grantOwners evs := rfl

theorem grantOwners_release {N : Nat} (w : Fin N) (t : Nat) (evs : List (TEv N)) :
    grantOwners (.release w t :: evs) = grantOwners evs := rfl

theorem grantTickets_take {N : Nat} (w : Fin N) (evs : List (TEv N)) :
    grantTickets (.take w :: evs) = grantTickets evs := rfl

theorem grantTickets_grant {N : Nat} (w : Fin N) (t : Nat) (evs : List (TEv N)) :
    grantTickets (.grant w t :: evs) = t :: grantTickets evs := rfl

theorem grantTickets_release {N : Nat} (w : Fin N) (t : Nat) (evs : List (TEv N)) :
    grantTickets (.release w t :: evs) = grantTickets evs := rfl

theorem releaseCount_take {N : Nat} (w : Fin N) (evs : List (TEv N)) :
    releaseCount (.take w :: evs) = releaseCount evs := rfl

theorem releaseCount_grant {N : Nat} (w : Fin N) (t : Nat) (evs : List (TEv N)) :
    releaseCount (.grant w t :: evs) = releaseCount evs := rfl

theorem releaseCount_release {N : Nat} (w : Fin N) (t : Nat) (evs : List (TEv N)) :
    releaseCount (.release w t :: evs) = releaseCount evs + 1 := by
  rw [releaseCount, releaseCount, List.filterMap_cons]
  simp

/-- Trace invariant of the ticket machine, by induction over a run from an
arbitrary invariant state `s0`: the counters advance by the number of takes
and releases; grants are issued to consecutive ticket numbers starting at
the first unserved-ungranted ticket of `s0`; ungranted tickets keep their
owner along the run; and the `i`-th grant of the run goes to the worker
owning the corresponding ticket (owned at `s0` or taken during the run). -/
theorem trun_pack {N : Nat} (hN : N < U32) :
    ∀ (evs : List (TEv N)) (s0 s2 : TicketState N),
      trun s0 evs = some s2 → SInv s0 →
      SInv s2 ∧
      s2.next = s0.next + (takeOwners evs).length ∧
      s2.serving = s0.serving + releaseCount evs ∧
      s2.serving + heldBit s2 =
        s0.serving + heldBit s0 + (grantTickets evs).length ∧
      grantTickets evs =
        List.range' (s0.serving + heldBit s0) (grantTickets evs).length ∧
      (∀ w t, owns s0 w t → s2.serving + heldBit s2 ≤ t → owns s2 w t) ∧
      (∀ i w, i < (grantTickets evs).length →
        (owns s0 w (s0.serving + heldBit s0 + i) ∨
          (s0.next ≤ s0.serving + heldBit s0 + i ∧
           (takeOwners evs)[s0.serving + heldBit s0 + i - s0.next]? = some w)) →
        (grantOwners evs)[i]? = some w) := by
  intro evs
  induction evs with
  | nil =>
    intro s0 s2 h hinv
    rw [trun] at h
    simp only [Option.some.injEq] at h
    subst h
    refine ⟨hinv, by simp [takeOwners], by simp [releaseCount], ?_, ?_, ?_, ?_⟩
    · simp [grantTickets]
    · simp [grantTickets]
    · intro w t ho _; exact ho
    · intro i w hi
      simp [grantTickets] at hi
  | cons e rest ih =>
    intro s0 s2 h hinv
    simp only [trun] at h
    cases e with
    | take w =>
      cases he : tstep s0 (.take w) with
      | none => rw [he] at h; exact absurd h (by simp)
      | some s1 =>
        rw [he] at h
        obtain ⟨hw, hnext1, hserv1, hst1, hheld1, hinv1⟩ :=
          tstep_take_spec he hinv
        obtain ⟨hinv2, hn2, hs2, hsh2, hgt2, hpers2, hpos2⟩ :=
          ih s1 s2 h hinv1
        have hbase : s1.serving + heldBit s1 = s0.serving + heldBit s0 := by
          rw [hserv1, hheld1]
        have hown01 : ∀ w' t', owns s0 w' t' → owns s1 w' t' := by
          intro w' t' ho
          have hww : w' ≠ w := by
            rintro rfl
            rcases ho with ho | ho <;> rw [hw] at ho <;> simp at ho
          rw [owns, hst1, Function.update_noteq hww]
          exact ho
        refine ⟨hinv2, ?_, ?_, ?_, ?_, ?_, ?_⟩
        · rw [takeOwners_take, List.length_cons, hn2, hnext1]; omega
        · rw [releaseCount_take, hs2, hserv1]
        · rw [grantTickets_take, hsh2, hbase]
        · rw [grantTickets_take, ← hbase]
          exact hgt2
        · intro w' t' ho hge
          exact hpers2 w' t' (hown01 w' t' ho) hge
        · intro i w' hi hdisj
          rw [grantTickets_take] at hi
          rw [grantOwners_take]
          refine hpos2 i w' hi ?_
          rw [hbase]
          rcases hdisj with ho | ⟨hge, hidx⟩
          · exact Or.inl (hown01 w' _ ho)
          · rw [takeOwners_take] at hidx
            rcases Nat.lt_or_ge s0.next (s0.serving + heldBit s0 + i) with hlt | hge'
            · -- strictly later ticket: index into the tail of the take list
              have hk : s0.serving + heldBit s0 + i - s0.next =
                  (s0.serving + heldBit s0 + i - s1.next) + 1 := by
                rw [hnext1]; omega
              rw [hk, List.getElem?_cons_succ] at hidx
              exact Or.inr ⟨by rw [hnext1]; omega, hidx⟩
            · -- the ticket taken by this very event
              have hT : s0.serving + heldBit s0 + i = s0.next := by omega
              rw [hT] at hidx ⊢
              rw [Nat.sub_self, List.getElem?_cons_zero] at hidx
              simp only [Option.some.injEq] at hidx
              subst hidx
              refine Or.inl ?_
              rw [owns, hst1, Function.update_same]
              exact Or.inl rfl
    | grant w t =>
      cases he : tstep s0 (.grant w t) with
      | none => rw [he] at h; exact absurd h (by simp)
      | some s1 =>
        rw [he] at h
        obtain ⟨hw, ht, hnext1, hserv1, hst1, hheld0, hheld1, hb, hinv1⟩ :=
          tstep_grant_spec hN he hinv
        obtain ⟨hinv2, hn2, hs2, hsh2, hgt2, hpers2, hpos2⟩ :=
          ih s1 s2 h hinv1
        have hbase0 : s0.serving + heldBit s0 = t := by rw [hheld0]; omega
        have hbase1 : s1.serving + heldBit s1 = t + 1 := by
          rw [hserv1, hheld1]; omega
        refine ⟨hinv2, ?_, ?_, ?_, ?_, ?_, ?_⟩
        · rw [takeOwners_grant, hn2, hnext1]
        · rw [releaseCount_grant, hs2, hserv1]
        · rw [grantTickets_grant, List.length_cons, hsh2, hbase1, hbase0]
          omega
        · rw [grantTickets_grant, List.length_cons, hbase0,
            List.range'_succ]
          congr 1
          rw [← hbase1]
          exact hgt2
        · intro w' t' ho hge
          have hge1 : s2.serving + heldBit s2 ≤ t' := hge
          refine hpers2 w' t' ((hb w' t').mpr ho) hge1
        · intro i w' hi hdisj
          rw [grantTickets_grant, List.length_cons] at hi
          rw [grantOwners_grant]
          cases i with
          | zero =>
            rw [List.getElem?_cons_zero]
            rcases hdisj with ho | ⟨hge, -⟩
            · rw [hbase0, Nat.add_zero] at ho
              have := hinv.inj w' w t ho (Or.inl hw)
              rw [this]
            · rw [hbase0, Nat.add_zero] at hge
              have := (hinv.bound w t (Or.inl hw)).2
              omega
          | succ j =>
            rw [List.getElem?_cons_succ]
            refine hpos2 j w' (by omega) ?_
            have hT : s0.serving + heldBit s0 + (j + 1) =
                s1.serving + heldBit s1 + j := by
              rw [hbase0, hbase1]; omega
            rcases hdisj with ho | ⟨hge, hidx⟩
            · refine Or.inl ?_
              rw [← hT]
              exact (hb w' _).mpr ho
            · refine Or.inr ?_
              rw [takeOwners_grant] at hidx
              rw [← hT, hnext1]
              exact ⟨hge, hidx⟩
    | release w t =>
      cases he : tstep s0 (.release w t) with
      | none => rw [he] at h; exact absurd h (by simp)
      | some s1 =>
        rw [he] at h
        obtain ⟨hw, ht, hnext1, hserv1, hst1, hheld1, hheld0, hb, hinv1⟩ :=
          tstep_release_spec he hinv
        obtain ⟨hinv2, hn2, hs2, hsh2, hgt2, hpers2, hpos2⟩ :=
          ih s1 s2 h hinv1
        have hbase : s1.serving + heldBit s1 = s0.serving + heldBit s0 := by
          rw [hserv1, hheld0, hheld1]
        have hown01 : ∀ w' t', owns s0 w' t' → s0.serving + 1 ≤ t' →
            owns s1 w' t' := by
          intro w' t' ho hge
          have hww : w' ≠ w := by
            rintro rfl
            rcases ho with ho | ho <;> rw [hw] at ho
            · simp at ho
            · rw [(WStatus.holding.injEq _ _).mp ho.symm] at hge
              omega
          exact (hb w' t').mpr ⟨hww, ho⟩
        refine ⟨hinv2, ?_, ?_, ?_, ?_, ?_, ?_⟩
        · rw [takeOwners_release, hn2, hnext1]
        · rw [releaseCount_release, hs2, hserv1]; omega
        · rw [grantTickets_release, hsh2, hbase]
        · rw [grantTickets_release, ← hbase]
          exact hgt2
        · intro w' t' ho hge
          have hb1 : s0.serving + 1 ≤ t' := by
            have h1 : s1.serving + heldBit s1 ≤ s2.serving + heldBit s2 := by
              rw [hsh2]; omega
            rw [hbase, hheld1] at h1
            omega
          exact hpers2 w' t' (hown01 w' t' ho hb1) hge
        · intro i w' hi hdisj
          rw [grantTickets_release] at hi
          rw [grantOwners_release]
          refine hpos2 i w' hi ?_
          rw [hbase]
          rcases hdisj with ho | ⟨hge, hidx⟩
          · refine Or.inl ?_
            refine hown01 w' _ ho ?_
            rw [hheld1]
            omega
          · rw [takeOwners_release] at hidx
            rw [hnext1]
            exact Or.inr ⟨hge, hidx⟩

theorem SInv_init (N : Nat) : SInv (initTicket N) := by
  refine ⟨le_refl 0, ?_, ?_, ?_, ?_⟩
  · intro w t ho
    rcases ho with ho | ho <;> simp [initTicket] at ho
  · intro w w' t ho ho'
    rcases ho with ho | ho <;> simp [initTicket] at ho
  · intro w t ho
    simp [initTicket] at ho
  · simp [busy, initTicket]

theorem heldBit_init (N : Nat) : heldBit (initTicket N) = 0 := by
  rw [heldBit, if_neg]
  rintro ⟨w, hw⟩
  simp [initTicket, isHolding] at hw

theorem grantOwners_length {N : Nat} (evs : List (TEv N)) :
    (grantOwners evs).length = (grantTickets evs).length := by
  induction evs with
  | nil => rfl
  | cons e rest ih =>
    cases e with
    | take w => rw [grantOwners_take, grantTickets_take]; exact ih
    | grant w t =>
      rw [grantOwners_grant, grantTickets_grant, List.length_cons,
        List.length_cons, ih]
    | release w t => rw [grantOwners_release, grantTickets_release]; exact ih

theorem serving_heldBit_le {N : Nat} {s : TicketState N} (hinv : SInv s) :
    s.serving + heldBit s ≤ s.next := by
  rw [heldBit]
  split
  · rename_i hex
    obtain ⟨w, hw⟩ := hex
    obtain ⟨t, ht⟩ := isHolding_iff.mp hw
    have := hinv.bound w t (Or.inr ht)
    omega
  · have := hinv.le; omega

/-- C10: starting from `next = serving = 0`, along any run of the protocol
with `N` workers (every release preceded by the matching completed lock),
`serving` never overtakes `next`, the difference `next − serving` equals the
number of workers owning an issued-but-not-yet-released ticket (at most
`N`), and the 32-bit unsigned difference of the machine's register values
computes exactly that number. -/
theorem ticket_counter_invariant (N : Nat) (hN : N < U32)
    (evs : List (TEv N)) (s : TicketState N)
    (h : trun (initTicket N) evs = some s) :
    s.serving ≤ s.next ∧
    s.next - s.serving = (busy s).card ∧
    (busy s).card ≤ N ∧
    sub32 (u32 s.next) (u32 s.serving) = (busy s).card := by
  obtain ⟨hinv, -, -, -, -, -, -⟩ := trun_pack hN evs (initTicket N) s h
    (SInv_init N)
  have hcard : s.next - s.serving ≤ N := by
    rw [← hinv.card_eq]; exact busy_card_le s
  refine ⟨hinv.le, hinv.card_eq.symm, busy_card_le s, ?_⟩
  rw [sub32_eq_of_le hinv.le ?_, hinv.card_eq]
  rw [U32] at hN ⊢
  omega

/-- Witness state for the ticket-machine theorems: worker 0 of 2 has taken
ticket 0. -/
def ticketWitState : TicketState 2 :=
  { next := 1, serving := 0,
    st := Function.update (fun _ => WStatus.idle) (0 : Fin 2)
      (WStatus.waiting 0) }

/-- Witness for `ticket_counter_invariant` after one `take` by worker 0. -/
theorem ticket_counter_invariant_witness :
    ticketWitState.serving ≤ ticketWitState.next ∧
    ticketWitState.next - ticketWitState.serving = (busy ticketWitState).card ∧
    (busy ticketWitState).card ≤ 2 ∧
    sub32 (u32 ticketWitState.next) (u32 ticketWitState.serving) =
      (busy ticketWitState).card :=
  ticket_counter_invariant 2 (by decide) [TEv.take 0] ticketWitState rfl

/-- C9: the ticket locks stay correct under 32-bit wrap-around: in any
reachable state with `N < 2^31` workers, for a waiter with ticket `my` the
32-bit equality test `serving == my` used by the code succeeds exactly when
the (unbounded, ghost) counters are equal; the unsigned 32-bit distance
`my − serving` equals the true queue distance (at most `N`); and no two
outstanding tickets collide modulo `2^32`. -/
theorem ticket_overflow_safe (N : Nat) (hN : N < 2 ^ 31)
    (evs : List (TEv N)) (s : TicketState N) (w : Fin N) (t : Nat)
    (h : trun (initTicket N) evs = some s) (hw : s.st w = .waiting t) :
    ((u32 s.serving = u32 t) ↔ s.serving = t) ∧
    sub32 (u32 t) (u32 s.serving) = t - s.serving ∧
    t - s.serving ≤ N ∧
    (∀ w' t', owns s w' t' → t' ≠ t → u32 t' ≠ u32 t) := by
  have h31 : (2 : Nat) ^ 31 = 2147483648 := by norm_num
  have hNU : N < U32 := by rw [U32]; omega
  obtain ⟨hinv, -, -, -, -, -, -⟩ := trun_pack hNU evs (initTicket N) s h
    (SInv_init N)
  have hcard : s.next - s.serving ≤ N := by
    rw [← hinv.card_eq]; exact busy_card_le s
  have hbd := hinv.bound w t (Or.inl hw)
  refine ⟨⟨?_, ?_⟩, ?_, by omega, ?_⟩
  · intro heq
    rw [u32, u32, U32] at heq
    omega
  · intro heq; rw [heq]
  · refine sub32_eq_of_le hbd.1 ?_
    rw [U32]
    omega
  · intro w' t' ho' hne
    have hbd' := hinv.bound w' t' ho'
    rw [u32, u32, U32]
    intro heq
    omega

/-- Witness for `ticket_overflow_safe` at the state `ticketWitState`. -/
theorem ticket_overflow_safe_witness :
    ((u32 ticketWitState.serving = u32 0) ↔ ticketWitState.serving = 0) ∧
    sub32 (u32 0) (u32 ticketWitState.serving) = 0 - ticketWitState.serving ∧
    0 - ticketWitState.serving ≤ 2 ∧
    (∀ w' t', owns ticketWitState w' t' → t' ≠ 0 → u32 t' ≠ u32 0) :=
  ticket_overflow_safe 2 (by decide) [TEv.take 0] ticketWitState 0 0
    rfl (by decide)

/-- C6: strict FIFO of the ticket lock.  Along any run from the initial
state, the granted tickets are exactly `0, 1, 2, …` in order (each waiter
with ticket `my` is granted precisely when `serving = my`, and `serving` is
incremented exactly once per release, counted by `releaseCount`), so the
workers acquire the lock exactly in the order in which their `fetch_add` on
`next_` completed; moreover from any reachable state in which all `N`
workers are waiting, the next `N` acquisitions contain every worker. -/
theorem ticket_fifo (N : Nat) (hN : N < U32) (evs : List (TEv N))
    (s : TicketState N) (h : trun (initTicket N) evs = some s) :
    grantTickets evs = List.range (grantOwners evs).length ∧
    grantOwners evs = (takeOwners evs).take (grantOwners evs).length ∧
    s.serving = releaseCount evs ∧
    ((∀ w', ∃ tw, s.st w' = WStatus.waiting tw) →
      ∀ (evs' : List (TEv N)) (s' : TicketState N),
        trun s evs' = some s' → ∀ w : Fin N,
          N ≤ (grantOwners evs').length →
          w ∈ (grantOwners evs').take N) := by
  obtain ⟨hinv, hn2, hs2, hsh2, hgt2, -, hpos2⟩ := trun_pack hN evs
    (initTicket N) s h (SInv_init N)
  have hzero : (initTicket N).serving + heldBit (initTicket N) = 0 := by
    rw [heldBit_init]
    rfl
  have hn2' : s.next = (takeOwners evs).length := by
    rw [hn2]
    show 0 + (takeOwners evs).length = (takeOwners evs).length
    omega
  have hs2' : s.serving = releaseCount evs := by
    rw [hs2]
    show 0 + releaseCount evs = releaseCount evs
    omega
  have hsh2' : s.serving + heldBit s = (grantTickets evs).length := by
    rw [hsh2, hzero]
    omega
  have hgt2' : grantTickets evs =
      List.range' 0 (grantTickets evs).length := by
    rw [hzero] at hgt2
    exact hgt2
  have hpos2' : ∀ i w', i < (grantTickets evs).length →
      (takeOwners evs)[i]? = some w' → (grantOwners evs)[i]? = some w' := by
    intro i w' hi hidx
    refine hpos2 i w' hi (Or.inr ⟨?_, ?_⟩)
    · rw [hzero]
      exact Nat.zero_le _
    · rw [hzero]
      simpa [initTicket] using hidx
  have hlen := grantOwners_length evs
  have hg_le : (grantTickets evs).length ≤ (takeOwners evs).length := by
    have h1 := serving_heldBit_le hinv
    omega
  refine ⟨?_, ?_, hs2', ?_⟩
  · rw [hlen, List.range_eq_range']
    exact hgt2'
  · rw [hlen]
    refine List.ext_getElem? ?_
    intro i
    rcases Nat.lt_or_ge i (grantTickets evs).length with hi | hi
    · obtain ⟨wi, hwi⟩ : ∃ wi, (takeOwners evs)[i]? = some wi := by
        have : i < (takeOwners evs).length := by omega
        exact ⟨(takeOwners evs)[i], List.getElem?_eq_getElem this⟩
      have hgo : (grantOwners evs)[i]? = some wi := hpos2' i wi hi hwi
      rw [hgo, List.getElem?_take, if_pos hi, hwi]
    · have h1 : (grantOwners evs)[i]? = none :=
        List.getElem?_eq_none (by omega)
      have h2 : ((takeOwners evs).take (grantTickets evs).length)[i]? = none := by
        refine List.getElem?_eq_none ?_
        rw [List.length_take]
        omega
      rw [h1, h2]
  · intro hall evs' s' h' w hNle
    obtain ⟨-, -, -, -, -, -, hpos'⟩ := trun_pack hN evs' s s' h' hinv
    have hheld : heldBit s = 0 := by
      rw [heldBit, if_neg]
      rintro ⟨w', hw'⟩
      obtain ⟨t', ht'⟩ := isHolding_iff.mp hw'
      obtain ⟨tw, htw⟩ := hall w'
      rw [htw] at ht'
      exact absurd ht' (by simp)
    have hbusy_univ : busy s = Finset.univ := by
      rw [busy]
      refine Finset.eq_univ_iff_forall.mpr ?_
      intro w'
      obtain ⟨tw, htw⟩ := hall w'
      simp [htw]
    have hcardN : s.next - s.serving = N := by
      rw [← hinv.card_eq, hbusy_univ]
      simp
    obtain ⟨tw, htw⟩ := hall w
    have hbd := hinv.bound w tw (Or.inl htw)
    have hgo : (grantOwners evs')[tw - s.serving]? = some w := by
      refine hpos' (tw - s.serving) w ?_ (Or.inl ?_)
      · rw [← grantOwners_length]; omega
      · rw [hheld]
        have : s.serving + 0 + (tw - s.serving) = tw := by omega
        rw [this]
        exact Or.inl htw
    have hmem : ((grantOwners evs').take N)[tw - s.serving]? = some w := by
      rw [List.getElem?_take, if_pos (by omega)]
      exact hgo
    exact List.getElem?_mem hmem

/-- State after workers 0 and 1 of 2 each took a ticket. -/
def ticketWitState2 : TicketState 2 :=
  { next := 2, serving := 0,
    st := Function.update (Function.update (fun _ => WStatus.idle) (0 : Fin 2)
      (WStatus.waiting 0)) (1 : Fin 2) (WStatus.waiting 1) }

/-- State after, additionally, worker 0 was granted and released and worker 1
was granted. -/
def ticketWitState3 : TicketState 2 :=
  { next := 2, serving := 1,
    st := Function.update (Function.update (Function.update ticketWitState2.st
      (0 : Fin 2) (WStatus.holding 0)) (0 : Fin 2) WStatus.idle) (1 : Fin 2)
      (WStatus.holding 1) }

/-- Witness for `ticket_fifo`: both workers take tickets, then the window of
the next two grants contains worker 0. -/
theorem ticket_fifo_witness :
    (0 : Fin 2) ∈ (grantOwners [TEv.grant (0 : Fin 2) 0, TEv.release 0 0,
      TEv.grant (1 : Fin 2) 1]).take 2 := by
  have h := (ticket_fifo 2 (by decide) [TEv.take 0, TEv.take 1]
      ticketWitState2 rfl).2.2.2
  refine h ?_ [TEv.grant 0 0, TEv.release 0 0, TEv.grant 1 1]
      ticketWitState3 rfl 0 (by decide)
  intro w'
  fin_cases w'
  · exact ⟨0, rfl⟩
  · exact ⟨1, rfl⟩

end LockTest
